import Mathlib

/-!
Verification of the fastmod batching engine (src/fastmod.py).

The Python program walks a directory tree, enqueues one permission-change
task per directory (a self-task with entry name ".") and one per regular
file, and a pool of workers buffers paths by permission string, flushing a
batch to `chgrp`/`chmod` once a group reaches the configured block size and
draining all remaining non-empty groups after the termination sentinel.

This file shallowly embeds that program: external effects (`os.system`
invocations) become a list of `Cmd` events, the Python `set` becomes a
duplicate-free insertion into a `List String`, the Python `dict` (insertion
ordered) becomes an association list, and `os.walk`'s output becomes a list
of `WalkEntry` records (one per directory, carrying its regular files).
-/

set_option autoImplicit false

namespace Fastmod

/-- A recorded invocation of the external permission-change primitive.
`chgrp g ps` models `os.system(f"chgrp {g} " + joined_paths)` and
`chmod p ps` models `os.system(f"chmod {p} " + joined_paths)` in
`worker_main` / `fastmod_file` (the `-f` flag added in quiet mode changes
only the flags of the shell command, not which primitive runs on which
paths, so it is not modelled). -/
inductive Cmd where
  | chgrp (group : String) (paths : List String)
  | chmod (perms : String) (paths : List String)
deriving DecidableEq

/-- The path set an invocation operates on. -/
def Cmd.paths : Cmd → List String
  | .chgrp _ ps => ps
  | .chmod _ ps => ps

/-- A non-sentinel queue item `(root, name, perms)` produced by
`fastmod_folder` lines 241 and 244. The sentinel `(None, None, None)` makes
a worker break out of its loop before touching the buffer, so worker
functions below are defined over the list of real tasks a worker consumes
before its sentinel. -/
structure Task where
  root : String
  name : String
  perms : String
deriving DecidableEq

/-- Path resolution from `worker_main` lines 75-78: the name `"."` marks a
directory self-task whose resolved path is the root itself. -/
def Task.path (t : Task) : String :=
  if t.name = "." then t.root else t.root ++ "/" ++ t.name

/-- One permission group: the Python `set` of resolved paths, embedded as a
duplicate-free list (insertion via `List.insert` skips present elements,
mirroring `set.add`). -/
abbrev PermGroup := List String

/-- The worker's `buffer` dict, keyed by permission string, in insertion
order as Python dicts are. -/
abbrev Buffer := List (String × PermGroup)

/-- `buffer[perms]` lookup (first entry with the key; `insertBuf` never
creates a duplicate key). Absent keys give the empty group. -/
def getBuf : Buffer → String → PermGroup
  | [], _ => []
  | (k, g) :: rest, p => if k = p then g else getBuf rest p

/-- `buffer.setdefault(perms, set()).add(path)` from `worker_main` line 83:
insert `x` into the group keyed `p`, creating the key at the end of the
dict if absent. -/
def insertBuf : Buffer → String → String → Buffer
  | [], p, x => [(p, [x])]
  | (k, g) :: rest, p, x =>
    if k = p then (k, g.insert x) :: rest else (k, g) :: insertBuf rest p x

/-- `buffer[perms].clear()` from `worker_main` line 91: the key stays in the
dict with an empty group. -/
def clearBuf : Buffer → String → Buffer
  | [], _ => []
  | (k, g) :: rest, p => if k = p then (k, []) :: rest else (k, g) :: clearBuf rest p

/-- The commands one flush emits (`worker_main` lines 88-90 and 96-98):
when a group name is configured, `chgrp` over the joined path set runs
first, then `chmod` over the same set. -/
def flushCmds (group : Option String) (perms : String) (paths : PermGroup) : List Cmd :=
  match group with
  | some g => [Cmd.chgrp g paths, Cmd.chmod perms paths]
  | none => [Cmd.chmod perms paths]

/-- One iteration of the worker loop body for a real task (`worker_main`
lines 83-91): insert the resolved path into its permission group, and if
that group now has at least `blocksize` elements, emit the flush commands
and clear the group. `blocksize` is an `Int` because Python never validates
it. -/
def workerStep (blocksize : Int) (group : Option String) (buf : Buffer) (t : Task) :
    Buffer × List Cmd :=
  let buf1 := insertBuf buf t.perms t.path
  let grp := getBuf buf1 t.perms
  if blocksize ≤ (grp.length : Int) then
    (clearBuf buf1 t.perms, flushCmds group t.perms grp)
  else
    (buf1, [])

/-- The worker's consumption loop over the stream of real tasks it dequeues
before its termination sentinel, returning the final buffer and the
commands emitted mid-run. -/
def workerLoop (blocksize : Int) (group : Option String) : Buffer → List Task → Buffer × List Cmd
  | buf, [] => (buf, [])
  | buf, t :: ts =>
    let step := workerStep blocksize group buf t
    let rest := workerLoop blocksize group step.1 ts
    (rest.1, step.2 ++ rest.2)

/-- The drain after the sentinel (`worker_main` lines 92-98): every
non-empty group is flushed, in dict order; empty groups are skipped. -/
def drainCmds (group : Option String) : Buffer → List Cmd
  | [] => []
  | (perms, g) :: rest =>
    (if g.isEmpty then [] else flushCmds group perms g) ++ drainCmds group rest

/-- A whole worker execution (`worker_main`): loop from an empty buffer over
the task stream, then drain. -/
def workerRun (blocksize : Int) (group : Option String) (tasks : List Task) : List Cmd :=
  let lp := workerLoop blocksize group [] tasks
  lp.2 ++ drainCmds group lp.1

/-- One `os.walk` triple, restricted to what `fastmod_folder` reads: the
directory's path and its regular files (the middle component is ignored by
the code). `os.walk` is an external primitive; it yields exactly one entry
per directory reachable under the root. -/
structure WalkEntry where
  root : String
  files : List String
deriving DecidableEq

/-- The producer of `fastmod_folder` lines 240-245: for every walk entry,
enqueue the directory self-task (name `"."`, directory permissions) and one
task per file (file permissions). The `total` counter equals the length of
this list. -/
def produceTasks (permsDir permsFil : String) : List WalkEntry → List Task
  | [] => []
  | e :: rest =>
    (⟨e.root, ".", permsDir⟩ : Task) :: e.files.map (fun f => (⟨e.root, f, permsFil⟩ : Task))
      ++ produceTasks permsDir permsFil rest

/-- Number of directories under the root: one walk entry per directory. -/
def numDirs (walk : List WalkEntry) : Nat := walk.length

/-- Number of regular files under the root. -/
def numFiles : List WalkEntry → Nat
  | [] => 0
  | e :: rest => e.files.length + numFiles rest

/-- A `chmod` invocation carries exactly one flushed batch, so summing its
path-set sizes counts the total of all flushed batch sizes. -/
def cmdSize : Cmd → Nat
  | .chmod _ ps => ps.length
  | .chgrp _ _ => 0

/-- Sum of the sizes of all flushed batches in a command stream. -/
def flushedSize : List Cmd → Nat
  | [] => 0
  | c :: rest => cmdSize c + flushedSize rest

/-- All paths buffered anywhere in the worker's dict. -/
def bufPaths : Buffer → List String
  | [] => []
  | kv :: rest => kv.2 ++ bufPaths rest

/-- Total number of buffered paths across all groups. -/
def bufSize : Buffer → Nat
  | [] => 0
  | kv :: rest => kv.2.length + bufSize rest

/-- Concatenation of the per-worker task streams: the queue hands each
enqueued task to exactly one worker, so the streams concatenate (in some
order) to a permutation of the produced task list. -/
def concatAll : List (List Task) → List Task
  | [] => []
  | s :: rest => s ++ concatAll rest

/-- The `Config` object of `fastmod.py` (class `Config` plus the fields
`parse_args` fills in). `ncpus` and `blocksize` are `Int` because
`int(arg[2:])` accepts negative values and nothing validates them. -/
structure Config where
  path : String
  perms_fil : String
  perms_dir : String
  group : Option String
  set_group : Bool
  ncpus : Int
  blocksize : Int
  quiet : Bool
deriving DecidableEq

/-- The default-constructed `Config.__init__` for a representative
environment: preset `baseline` (the shipped default), `DEFAULT_CORES = 3`
(a machine with 4 cpus), `DEFAULT_BLOCKSIZE = 128`. -/
def defaultConfig : Config :=
  { path := ""
    perms_fil := "u+rw,g+r-w,o+r-w"
    perms_dir := "u+rwx,g+rxs-w,o+rx-w"
    group := none
    set_group := false
    ncpus := 3
    blocksize := 128
    quiet := false }

/-- The `PRESETS` table of `fastmod.py`, as a lookup from preset name to
`(file perms, directory perms)`. -/
def PRESETS (name : String) : Option (String × String) :=
  if name = "baseline" then some ("u+rw,g+r-w,o+r-w", "u+rwx,g+rxs-w,o+rx-w")
  else if name = "group-allowed" then some ("ug+rw,o+r-w", "ug+rwx,g+s,o+rx-w")
  else if name = "private" then some ("u+rw,go-rwx", "u+rwx,g-rwx,o-rwx")
  else if name = "private-group" then some ("ug+rw,o-rwx", "ug+rwx,g+s,o-rwx")
  else if name = "readonly" then some ("a-w,+t", "a-w,+t")
  else none

/-- Outcome of processing one flag argument in `parse_args`' loop:
`ok` continues with the updated config, `retNone` models the
`return None` branches (unknown preset, bad `file:dir` split — Python
catches the unpack `ValueError` and returns `None`), and `valueError`
models the uncaught exception `int(arg[2:])` raises on a malformed
`-C`/`-B` argument. -/
inductive ParseStep where
  | ok (c : Config)
  | retNone
  | valueError
deriving DecidableEq

/-- Python's `arg.startswith(prefix)`, over the string's character list. -/
def strStartsWith (s pre : String) : Bool := pre.data.isPrefixOf s.data

/-- Python's slice `arg[n:]`, over the string's character list. -/
def strDrop (s : String) (n : Nat) : String := String.mk (s.data.drop n)

/-- Python's `":" in arg`. -/
def strHasColon (s : String) : Bool := s.data.contains ':'

/-- Helper for `arg.split(":")`: split a character list at every colon. -/
def splitColonAux : List Char → List (List Char)
  | [] => [[]]
  | c :: rest =>
    let r := splitColonAux rest
    if c = ':' then [] :: r
    else
      match r with
      | [] => [[c]]
      | h :: t => (c :: h) :: t

/-- Python's `arg.split(":")`. -/
def splitOnColon (s : String) : List String := (splitColonAux s.data).map String.mk

/-- Digit-run accumulator for `pyInt`. -/
def parseDigitsAux : List Char → Nat → Option Nat
  | [], acc => some acc
  | c :: rest, acc =>
    if 48 ≤ c.toNat ∧ c.toNat ≤ 57 then parseDigitsAux rest (acc * 10 + (c.toNat - 48))
    else none

/-- Python's `int(s)` on a stripped argument: an optional sign followed by
at least one decimal digit; anything else raises `ValueError` (`none`). -/
def pyInt (s : String) : Option Int :=
  match s.data with
  | [] => none
  | '-' :: rest =>
    match rest with
    | [] => none
    | _ => (parseDigitsAux rest 0).map (fun n => -(n : Int))
  | '+' :: rest =>
    match rest with
    | [] => none
    | _ => (parseDigitsAux rest 0).map (fun n => (n : Int))
  | cs => (parseDigitsAux cs 0).map (fun n => (n : Int))

/-- One iteration of the `for arg in argv[2:]` loop of `parse_args`
(lines 189-219), with `pg` standing for the environment-dependent
`PRIMARY_GROUP`. -/
def applyArg (pg : String) (c : Config) (arg : String) : ParseStep :=
  if strStartsWith arg "-G" then
    .ok { c with set_group := true, group := some (if arg = "-G" then pg else strDrop arg 2) }
  else if strStartsWith arg "-C" then
    match pyInt (strDrop arg 2) with
    | some n => .ok { c with ncpus := n }
    | none => .valueError
  else if strStartsWith arg "-B" then
    match pyInt (strDrop arg 2) with
    | some n => .ok { c with blocksize := n }
    | none => .valueError
  else if arg = "-q" then
    .ok { c with quiet := true }
  else if strStartsWith arg "--" then
    match PRESETS (strDrop arg 2) with
    | some pd => .ok { c with perms_fil := pd.1, perms_dir := pd.2 }
    | none => .retNone
  else if strHasColon arg then
    match splitOnColon arg with
    | [f, d] => .ok { c with perms_fil := f, perms_dir := d }
    | _ => .retNone
  else
    .ok { c with perms_fil := arg, perms_dir := arg }

/-- The flag loop of `parse_args` over `argv[2:]`. -/
def parseRest (pg : String) : Config → List String → ParseStep
  | c, [] => .ok c
  | c, arg :: rest =>
    match applyArg pg c arg with
    | .ok c1 => parseRest pg c1 rest
    | .retNone => .retNone
    | .valueError => .valueError

/-- What one invocation of `main` does, as far as the claims need:
`helpShown` is the empty-argv help path (`return 1`); `pathNotFound` is
`parse_args`' pre-flight check printing the diagnostic and calling
`sys.exit(1)` — no worker is spawned, no task enqueued, and the report
step never runs; `argError` is `parse_args` returning `None`
(`main` returns 1); `crashed` is the uncaught `ValueError` from `int()`;
`folderRun c` is the dispatch into `fastmod_folder` with the parsed
config; `fileRun cmds` is the single-file shortcut, recording the
primitive invocations it performs. -/
inductive RunOutcome where
  | helpShown
  | pathNotFound
  | argError
  | crashed
  | folderRun (c : Config)
  | fileRun (cmds : List Cmd)
deriving DecidableEq

/-- `fastmod_file` (lines 259-264): `chmod` on the single path first, then
`chgrp` if and only if `set_group` is set. Python would render a `None`
group as the literal string `"None"` in the f-string, hence `getD`. -/
def fastmod_file (c : Config) : List Cmd :=
  Cmd.chmod c.perms_fil [c.path] ::
    (if c.set_group then [Cmd.chgrp (c.group.getD "None") [c.path]] else [])

/-- `main` (lines 267-288) composed with `parse_args` (lines 181-221):
`ex` and `isdir` stand for `os.path.exists` / `os.path.isdir`, `pg` for
`PRIMARY_GROUP`, and `c0` for the default-constructed `Config`. -/
def main (ex isdir : String → Bool) (pg : String) (c0 : Config) : List String → RunOutcome
  | [] => .helpShown
  | [_] => .helpShown
  | _prog :: path :: rest =>
    if ex path then
      match parseRest pg { c0 with path := path } rest with
      | .ok c => if isdir c.path then .folderRun c else .fileRun (fastmod_file c)
      | .retNone => .argError
      | .valueError => .crashed
    else .pathNotFound

/-- How many worker processes `fastmod_folder` spawns:
`range(config.ncpus)` is empty for `ncpus ≤ 0`. -/
def numWorkers (c : Config) : Nat := c.ncpus.toNat

/-- The rate computations of the report line (`fastmod_folder` lines
255-256): Python's `duration/total` and `total/duration` raise
`ZeroDivisionError` when the divisor is zero, modelled as `none`. -/
def report_rates (total : Nat) (duration : ℚ) : Option (ℚ × ℚ) :=
  if total = 0 then none
  else if duration = 0 then none
  else some (duration / (total : ℚ), (total : ℚ) / duration)

/-- The shape of a worker's command stream when a group name is configured:
a sequence of flushed batches, each invoking the group-ownership change on
a path set immediately before the permission change on that same path
set. -/
inductive GroupFirst (g : String) : List Cmd → Prop
  | nil : GroupFirst g []
  | flush (perms : String) (paths : List String) (rest : List Cmd) :
      GroupFirst g rest →
      GroupFirst g (Cmd.chgrp g paths :: Cmd.chmod perms paths :: rest)

/-- Every permission group currently buffered is strictly below the block
size (the worker's steady-state invariant). -/
def bufBelow (B : Int) (buf : Buffer) : Prop :=
  ∀ p : String, ((getBuf buf p).length : Int) < B

/-- Every permission group currently buffered is duplicate-free (the
Python `set` invariant). -/
def bufNodup (buf : Buffer) : Prop :=
  ∀ kv ∈ buf, kv.2.Nodup

/-- Number of permission-change invocations in a command stream. -/
def countChmod (cmds : List Cmd) : Nat :=
  (cmds.filter fun c => match c with | .chmod _ _ => true | _ => false).length

/-- Number of group-ownership invocations in a command stream. -/
def countChgrp (cmds : List Cmd) : Nat :=
  (cmds.filter fun c => match c with | .chgrp _ _ => true | _ => false).length

/-- The configuration the concrete run `fastmod d -C0 -B0` parses to:
worker count 0 and block size 0, both below 1. -/
def cfgZero : Config :=
  { defaultConfig with path := "d", ncpus := 0, blocksize := 0 }

/-- The configuration the concrete run `fastmod f -Gusers` parses to. -/
def cfgGroupFile : Config :=
  { defaultConfig with path := "f", set_group := true, group := some "users" }

end Fastmod

namespace Fastmod

theorem flushedSize_append (a b : List Cmd) :
    flushedSize (a ++ b) = flushedSize a + flushedSize b := by
  induction a with
  | nil => simp [flushedSize]
  | cons c rest ih =>
    show cmdSize c + flushedSize (rest ++ b) = cmdSize c + flushedSize rest + flushedSize b
    rw [ih]
    omega

theorem paths_mem_flushCmds (g : Option String) (p : String) (ps : PermGroup) :
    ∀ c ∈ flushCmds g p ps, c.paths = ps := by
  cases g <;> simp [flushCmds, Cmd.paths]

theorem flushedSize_flushCmds (g : Option String) (p : String) (ps : PermGroup) :
    flushedSize (flushCmds g p ps) = ps.length := by
  cases g <;> simp [flushCmds, flushedSize, cmdSize]

theorem getBuf_insertBuf (buf : Buffer) (p x q : String) :
    getBuf (insertBuf buf p x) q =
      if p = q then (getBuf buf p).insert x else getBuf buf q := by
  induction buf with
  | nil => by_cases h : p = q <;> simp [insertBuf, getBuf, h, List.insert]
  | cons kv rest ih =>
    obtain ⟨k, g⟩ := kv
    simp only [insertBuf]
    by_cases hk : k = p
    · subst hk
      by_cases hq : k = q <;> simp [getBuf, hq]
    · have hpk : ¬ p = k := fun h => hk h.symm
      simp only [if_neg hk]
      by_cases hq : k = q
      · subst hq
        simp [getBuf, hpk]
      · simp [getBuf, hq, hk, ih]

theorem getBuf_clearBuf (buf : Buffer) (p q : String) :
    getBuf (clearBuf buf p) q = if p = q then [] else getBuf buf q := by
  induction buf with
  | nil => by_cases h : p = q <;> simp [clearBuf, getBuf, h]
  | cons kv rest ih =>
    obtain ⟨k, g⟩ := kv
    simp only [clearBuf]
    by_cases hk : k = p
    · subst hk
      by_cases hq : k = q <;> simp [getBuf, hq]
    · have hpk : ¬ p = k := fun h => hk h.symm
      simp only [if_neg hk]
      by_cases hq : k = q
      · subst hq
        simp [getBuf, hpk]
      · simp [getBuf, hq, ih]

theorem bufSize_insertBuf (buf : Buffer) (p x : String) (h : x ∉ bufPaths buf) :
    bufSize (insertBuf buf p x) = bufSize buf + 1 := by
  induction buf with
  | nil => simp [insertBuf, bufSize]
  | cons kv rest ih =>
    obtain ⟨k, g⟩ := kv
    simp only [bufPaths, List.mem_append] at h
    push_neg at h
    simp only [insertBuf]
    by_cases hk : k = p
    · subst hk
      simp only [if_pos rfl, bufSize]
      rw [List.length_insert_of_not_mem h.1]
      omega
    · simp only [if_neg hk, bufSize, ih h.2]
      omega

theorem bufSize_clearBuf (buf : Buffer) (p : String) :
    bufSize (clearBuf buf p) + (getBuf buf p).length = bufSize buf := by
  induction buf with
  | nil => simp [clearBuf, bufSize, getBuf]
  | cons kv rest ih =>
    obtain ⟨k, g⟩ := kv
    simp only [clearBuf, getBuf]
    by_cases hk : k = p
    · simp only [if_pos hk, bufSize, List.length_nil]
      omega
    · simp only [if_neg hk, bufSize]
      omega

theorem mem_bufPaths_insertBuf (buf : Buffer) (p x y : String)
    (h : y ∈ bufPaths (insertBuf buf p x)) : y = x ∨ y ∈ bufPaths buf := by
  induction buf with
  | nil =>
    simp [insertBuf, bufPaths] at h
    exact Or.inl h
  | cons kv rest ih =>
    obtain ⟨k, g⟩ := kv
    simp only [insertBuf] at h
    by_cases hk : k = p
    · simp only [if_pos hk, bufPaths, List.mem_append] at h
      rcases h with h | h
      · rcases List.mem_insert_iff.mp h with h | h
        · exact Or.inl h
        · exact Or.inr (by simp [bufPaths, List.mem_append, h])
      · exact Or.inr (by simp [bufPaths, List.mem_append, h])
    · simp only [if_neg hk, bufPaths, List.mem_append] at h
      rcases h with h | h
      · exact Or.inr (by simp [bufPaths, List.mem_append, h])
      · rcases ih h with hx | hx
        · exact Or.inl hx
        · exact Or.inr (by simp [bufPaths, List.mem_append, hx])

theorem mem_bufPaths_clearBuf (buf : Buffer) (p : String) (y : String)
    (h : y ∈ bufPaths (clearBuf buf p)) : y ∈ bufPaths buf := by
  induction buf with
  | nil => simp [clearBuf, bufPaths] at h
  | cons kv rest ih =>
    obtain ⟨k, g⟩ := kv
    simp only [clearBuf] at h
    by_cases hk : k = p
    · simp only [if_pos hk, bufPaths, List.mem_append] at h
      rcases h with h | h
      · simp at h
      · simp [bufPaths, List.mem_append, h]
    · simp only [if_neg hk, bufPaths, List.mem_append] at h
      rcases h with h | h
      · simp [bufPaths, List.mem_append, h]
      · simp [bufPaths, List.mem_append, ih h]

theorem insertBuf_mem (buf : Buffer) (p x : String) (kv : String × PermGroup)
    (h : kv ∈ insertBuf buf p x) : kv ∈ buf ∨ kv = (p, (getBuf buf p).insert x) := by
  induction buf with
  | nil =>
    simp [insertBuf] at h
    exact Or.inr (by simp [h, getBuf, List.insert])
  | cons kw rest ih =>
    obtain ⟨k, g⟩ := kw
    simp only [insertBuf] at h
    by_cases hk : k = p
    · subst hk
      rw [if_pos rfl] at h
      simp only [List.mem_cons] at h
      rcases h with h | h
      · exact Or.inr (by simp [h, getBuf])
      · exact Or.inl (List.mem_cons_of_mem _ h)
    · simp only [if_neg hk, List.mem_cons] at h
      rcases h with h | h
      · exact Or.inl (by simp [h])
      · rcases ih h with hx | hx
        · exact Or.inl (List.mem_cons_of_mem _ hx)
        · refine Or.inr ?_
          rw [hx]
          have hg : getBuf ((k, g) :: rest) p = getBuf rest p := by
            simp [getBuf, hk]
          rw [hg]

theorem clearBuf_mem (buf : Buffer) (p : String) (kv : String × PermGroup)
    (h : kv ∈ clearBuf buf p) : kv.2 = [] ∨ kv ∈ buf := by
  induction buf with
  | nil => simp [clearBuf] at h
  | cons kw rest ih =>
    obtain ⟨k, g⟩ := kw
    simp only [clearBuf] at h
    by_cases hk : k = p
    · simp only [if_pos hk, List.mem_cons] at h
      rcases h with h | h
      · exact Or.inl (by simp [h])
      · exact Or.inr (List.mem_cons_of_mem _ h)
    · simp only [if_neg hk, List.mem_cons] at h
      rcases h with h | h
      · exact Or.inr (by simp [h])
      · rcases ih h with hx | hx
        · exact Or.inl hx
        · exact Or.inr (List.mem_cons_of_mem _ hx)

theorem getBuf_cases (buf : Buffer) (p : String) :
    getBuf buf p = [] ∨ (p, getBuf buf p) ∈ buf := by
  induction buf with
  | nil => simp [getBuf]
  | cons kv rest ih =>
    obtain ⟨k, g⟩ := kv
    simp only [getBuf]
    by_cases hk : k = p
    · subst hk
      simp
    · simp only [if_neg hk]
      rcases ih with h | h
      · exact Or.inl h
      · exact Or.inr (List.mem_cons_of_mem _ h)

end Fastmod

namespace Fastmod

theorem workerLoop_cons (B : Int) (g : Option String) (buf : Buffer) (t : Task)
    (ts : List Task) :
    workerLoop B g buf (t :: ts) =
      ((workerLoop B g (workerStep B g buf t).1 ts).1,
       (workerStep B g buf t).2 ++ (workerLoop B g (workerStep B g buf t).1 ts).2) := rfl

theorem workerStep_flush (B : Int) (g : Option String) (buf : Buffer) (t : Task)
    (h : B ≤ ((getBuf (insertBuf buf t.perms t.path) t.perms).length : Int)) :
    workerStep B g buf t =
      (clearBuf (insertBuf buf t.perms t.path) t.perms,
       flushCmds g t.perms (getBuf (insertBuf buf t.perms t.path) t.perms)) := by
  simp [workerStep, h]

theorem workerStep_noflush (B : Int) (g : Option String) (buf : Buffer) (t : Task)
    (h : ¬ B ≤ ((getBuf (insertBuf buf t.perms t.path) t.perms).length : Int)) :
    workerStep B g buf t = (insertBuf buf t.perms t.path, []) := by
  simp [workerStep, h]

theorem flushedSize_drainCmds (g : Option String) (buf : Buffer) :
    flushedSize (drainCmds g buf) = bufSize buf := by
  induction buf with
  | nil => simp [drainCmds, bufSize, flushedSize]
  | cons kv rest ih =>
    obtain ⟨p, grp⟩ := kv
    by_cases hg : grp.isEmpty
    · have hnil : grp = [] := by simpa using hg
      simp [drainCmds, hg, bufSize, hnil, ih, flushedSize]
    · simp [drainCmds, hg, bufSize, flushedSize_append, flushedSize_flushCmds, ih]

/-- Conservation through the worker loop: when the incoming task paths are
pairwise distinct and none is already buffered, the sizes of the flushed
batches plus what stays buffered account for every consumed task, and
every buffered path came from the initial buffer or from a consumed task. -/
theorem workerLoop_size (B : Int) (g : Option String) (tasks : List Task) :
    ∀ buf : Buffer,
      (tasks.map Task.path).Nodup →
      (∀ t ∈ tasks, t.path ∉ bufPaths buf) →
      flushedSize (workerLoop B g buf tasks).2 + bufSize (workerLoop B g buf tasks).1
          = bufSize buf + tasks.length ∧
      (∀ y, y ∈ bufPaths (workerLoop B g buf tasks).1 →
        y ∈ bufPaths buf ∨ ∃ t ∈ tasks, y = t.path) := by
  induction tasks with
  | nil =>
    intro buf _ _
    simp [workerLoop, flushedSize]
  | cons t ts ih =>
    intro buf hnd hfresh
    have hx : t.path ∉ bufPaths buf := hfresh t (by simp)
    have hnd1 : t.path ∉ ts.map Task.path ∧ (ts.map Task.path).Nodup := by
      rw [List.map_cons, List.nodup_cons] at hnd
      exact hnd
    have hbuf1 : bufSize (insertBuf buf t.perms t.path) = bufSize buf + 1 :=
      bufSize_insertBuf buf t.perms t.path hx
    by_cases hflush : B ≤ ((getBuf (insertBuf buf t.perms t.path) t.perms).length : Int)
    · -- the group reached the block size: flush and clear
      have hstep := workerStep_flush B g buf t hflush
      have hfresh2 : ∀ u ∈ ts,
          u.path ∉ bufPaths (clearBuf (insertBuf buf t.perms t.path) t.perms) := by
        intro u hu hmem
        have h1 := mem_bufPaths_clearBuf _ _ _ hmem
        rcases mem_bufPaths_insertBuf _ _ _ _ h1 with h2 | h2
        · exact hnd1.1 (by simpa [h2] using List.mem_map_of_mem Task.path hu)
        · exact hfresh u (List.mem_cons_of_mem _ hu) h2
      have hrec := ih (clearBuf (insertBuf buf t.perms t.path) t.perms) hnd1.2 hfresh2
      have hclear := bufSize_clearBuf (insertBuf buf t.perms t.path) t.perms
      constructor
      · rw [workerLoop_cons, hstep]
        simp only [flushedSize_append, flushedSize_flushCmds, List.length_cons]
        omega
      · intro y hy
        rw [workerLoop_cons, hstep] at hy
        rcases hrec.2 y hy with h1 | h1
        · have h2 := mem_bufPaths_clearBuf _ _ _ h1
          rcases mem_bufPaths_insertBuf _ _ _ _ h2 with h3 | h3
          · exact Or.inr ⟨t, by simp, h3⟩
          · exact Or.inl h3
        · obtain ⟨u, hu, hyu⟩ := h1
          exact Or.inr ⟨u, List.mem_cons_of_mem _ hu, hyu⟩
    · -- below the block size: just buffer the path
      have hstep := workerStep_noflush B g buf t hflush
      have hfresh2 : ∀ u ∈ ts, u.path ∉ bufPaths (insertBuf buf t.perms t.path) := by
        intro u hu hmem
        rcases mem_bufPaths_insertBuf _ _ _ _ hmem with h2 | h2
        · exact hnd1.1 (by simpa [h2] using List.mem_map_of_mem Task.path hu)
        · exact hfresh u (List.mem_cons_of_mem _ hu) h2
      have hrec := ih (insertBuf buf t.perms t.path) hnd1.2 hfresh2
      constructor
      · rw [workerLoop_cons, hstep]
        simp only [flushedSize_append, List.length_cons, flushedSize]
        omega
      · intro y hy
        rw [workerLoop_cons, hstep] at hy
        rcases hrec.2 y hy with h1 | h1
        · rcases mem_bufPaths_insertBuf _ _ _ _ h1 with h3 | h3
          · exact Or.inr ⟨t, by simp, h3⟩
          · exact Or.inl h3
        · obtain ⟨u, hu, hyu⟩ := h1
          exact Or.inr ⟨u, List.mem_cons_of_mem _ hu, hyu⟩

/-- A single worker whose task stream has pairwise distinct resolved paths
flushes, over its whole execution (mid-run plus drain), exactly as many
paths as it consumed tasks. -/
theorem workerRun_flushedSize (B : Int) (g : Option String) (tasks : List Task)
    (h : (tasks.map Task.path).Nodup) :
    flushedSize (workerRun B g tasks) = tasks.length := by
  have key := workerLoop_size B g tasks [] h (by intro t _ hm; simp [bufPaths] at hm)
  have hdrain := flushedSize_drainCmds g (workerLoop B g [] tasks).1
  have hnil : bufSize ([] : Buffer) = 0 := rfl
  simp only [workerRun, flushedSize_append]
  omega

theorem concatAll_length (streams : List (List Task)) :
    (concatAll streams).length = (streams.map List.length).sum := by
  induction streams with
  | nil => simp [concatAll]
  | cons s rest ih => simp [concatAll, ih]

theorem sum_flushed_concatAll (B : Int) (g : Option String) (streams : List (List Task))
    (h : ((concatAll streams).map Task.path).Nodup) :
    (streams.map (fun s => flushedSize (workerRun B g s))).sum
      = (concatAll streams).length := by
  induction streams with
  | nil => simp [concatAll]
  | cons s rest ih =>
    have hmap : (s.map Task.path ++ (concatAll rest).map Task.path).Nodup := by
      rw [← List.map_append]
      simpa [concatAll] using h
    have hs := hmap.of_append_left
    have hr := hmap.of_append_right
    simp [concatAll, workerRun_flushedSize B g s hs, ih hr]

theorem produceTasks_length (pd pf : String) (walk : List WalkEntry) :
    (produceTasks pd pf walk).length = numFiles walk + numDirs walk := by
  induction walk with
  | nil => simp [produceTasks, numFiles, numDirs]
  | cons e rest ih =>
    show ((⟨e.root, ".", pd⟩ : Task) :: e.files.map (fun f => (⟨e.root, f, pf⟩ : Task))
        ++ produceTasks pd pf rest).length = numFiles (e :: rest) + numDirs (e :: rest)
    simp only [List.length_cons, List.length_append, List.length_map, ih, numFiles, numDirs]
    omega

end Fastmod

namespace Fastmod

/-- C1: for every directory tree with F regular files and D directories
under an existing root, the producer enqueues exactly F + D tasks (one
self-task per directory, one task per file), and — for any distribution of
those tasks over the workers' streams, given that the walk visits every
filesystem entry exactly once (pairwise distinct resolved paths) — the sum
of the sizes of all batches flushed by all workers, mid-run flushes plus
drain flushes, equals F + D: no buffered path is dropped. -/
theorem producer_worker_totals (pd pf : String) (walk : List WalkEntry) (B : Int)
    (g : Option String) (streams : List (List Task))
    (hperm : List.Perm (concatAll streams) (produceTasks pd pf walk))
    (hnodup : ((produceTasks pd pf walk).map Task.path).Nodup) :
    (produceTasks pd pf walk).length = numFiles walk + numDirs walk ∧
    (streams.map (fun s => flushedSize (workerRun B g s))).sum
      = numFiles walk + numDirs walk := by
  have hlen := produceTasks_length pd pf walk
  have hnod2 : ((concatAll streams).map Task.path).Nodup :=
    ((hperm.map Task.path).nodup_iff).mpr hnodup
  have hsum := sum_flushed_concatAll B g streams hnod2
  have hleq := hperm.length_eq
  exact ⟨hlen, by omega⟩

theorem producer_worker_totals_witness :
    (produceTasks "dp" "fp" [⟨"r", ["a", "b"]⟩]).length
        = numFiles [⟨"r", ["a", "b"]⟩] + numDirs [⟨"r", ["a", "b"]⟩] ∧
    (([[⟨"r", ".", "dp"⟩, ⟨"r", "a", "fp"⟩], [⟨"r", "b", "fp"⟩]] : List (List Task)).map
        (fun s => flushedSize (workerRun 2 (some "grp") s))).sum
      = numFiles [⟨"r", ["a", "b"]⟩] + numDirs [⟨"r", ["a", "b"]⟩] :=
  producer_worker_totals "dp" "fp" [⟨"r", ["a", "b"]⟩] 2 (some "grp")
    [[⟨"r", ".", "dp"⟩, ⟨"r", "a", "fp"⟩], [⟨"r", "b", "fp"⟩]] (by decide) (by decide)

/-- C4: the claim says a folder run that completes with zero total tasks
must not crash in the report step; the code unconditionally computes
`duration/total`, which raises `ZeroDivisionError` when `total = 0`
(modelled as `none`), so the report produces no rate values at all. -/
theorem report_zero_tasks_raises (d : ℚ) : report_rates 0 d = none := by
  simp [report_rates]

theorem GroupFirst.append {g : String} {l1 l2 : List Cmd}
    (h1 : GroupFirst g l1) (h2 : GroupFirst g l2) : GroupFirst g (l1 ++ l2) := by
  induction h1 with
  | nil => simpa using h2
  | flush perms paths rest hrest ih =>
    rw [List.cons_append, List.cons_append]
    exact GroupFirst.flush perms paths _ ih

theorem groupFirst_flushCmds (g : String) (perms : String) (paths : PermGroup) :
    GroupFirst g (flushCmds (some g) perms paths) :=
  GroupFirst.flush perms paths [] GroupFirst.nil

theorem workerLoop_groupFirst (B : Int) (g : String) (tasks : List Task) :
    ∀ buf : Buffer, GroupFirst g (workerLoop B (some g) buf tasks).2 := by
  induction tasks with
  | nil => intro buf; exact GroupFirst.nil
  | cons t ts ih =>
    intro buf
    rw [workerLoop_cons]
    by_cases hflush : B ≤ ((getBuf (insertBuf buf t.perms t.path) t.perms).length : Int)
    · rw [workerStep_flush B (some g) buf t hflush]
      exact (groupFirst_flushCmds g t.perms _).append (ih _)
    · rw [workerStep_noflush B (some g) buf t hflush]
      simpa using ih _

theorem drainCmds_groupFirst (g : String) (buf : Buffer) :
    GroupFirst g (drainCmds (some g) buf) := by
  induction buf with
  | nil => exact GroupFirst.nil
  | cons kv rest ih =>
    obtain ⟨p, grp⟩ := kv
    by_cases hg : grp.isEmpty
    · simpa [drainCmds, hg] using ih
    · simp only [drainCmds, if_neg hg]
      exact (groupFirst_flushCmds g p grp).append ih

/-- C2: for every batch a worker flushes — both mid-run flushes at block
size and drain flushes after the termination sentinel — when a group name
is configured for the run, the whole command stream decomposes into
flushes whose group-ownership change over the batch's path set comes
strictly (immediately) before the permission change over that same path
set. -/
theorem ownership_before_permission (B : Int) (g : String) (tasks : List Task) :
    GroupFirst g (workerRun B (some g) tasks) :=
  (workerLoop_groupFirst B g tasks []).append (drainCmds_groupFirst g _)

end Fastmod

namespace Fastmod

theorem length_insert_le (x : String) (l : List String) :
    (l.insert x).length ≤ l.length + 1 := by
  by_cases h : x ∈ l
  · simp [List.insert_of_mem h]
  · simp [List.insert_of_not_mem h]

theorem insert_ne_nil (x : String) (l : List String) : l.insert x ≠ [] := by
  by_cases h : x ∈ l
  · rw [List.insert_of_mem h]
    exact List.ne_nil_of_mem h
  · rw [List.insert_of_not_mem h]
    simp

/-- Steady-state invariant: starting from a buffer whose groups are all
strictly below the block size (with `B ≥ 1`), every command the loop emits
carries a batch of exactly `B` paths, and the invariant is preserved. -/
theorem workerLoop_flush_exact (B : Int) (hB : 1 ≤ B) (g : Option String)
    (tasks : List Task) :
    ∀ buf : Buffer, bufBelow B buf →
      (∀ c ∈ (workerLoop B g buf tasks).2, (c.paths.length : Int) = B) ∧
      bufBelow B (workerLoop B g buf tasks).1 := by
  induction tasks with
  | nil =>
    intro buf hb
    refine ⟨?_, hb⟩
    intro c hc
    simp [workerLoop] at hc
  | cons t ts ih =>
    intro buf hb
    have hgrp : getBuf (insertBuf buf t.perms t.path) t.perms
        = (getBuf buf t.perms).insert t.path := by
      rw [getBuf_insertBuf]
      simp
    have hle : ((getBuf (insertBuf buf t.perms t.path) t.perms).length : Int)
        ≤ ((getBuf buf t.perms).length : Int) + 1 := by
      rw [hgrp]
      exact_mod_cast length_insert_le t.path (getBuf buf t.perms)
    have hold := hb t.perms
    by_cases hflush : B ≤ ((getBuf (insertBuf buf t.perms t.path) t.perms).length : Int)
    · have hexact : ((getBuf (insertBuf buf t.perms t.path) t.perms).length : Int) = B := by
        omega
      have hb2 : bufBelow B (clearBuf (insertBuf buf t.perms t.path) t.perms) := by
        intro q
        rw [getBuf_clearBuf]
        by_cases hq : t.perms = q
        · simp [hq]
          omega
        · rw [if_neg hq, getBuf_insertBuf, if_neg hq]
          exact hb q
      have hrec := ih (clearBuf (insertBuf buf t.perms t.path) t.perms) hb2
      refine ⟨?_, ?_⟩
      · intro c hc
        rw [workerLoop_cons, workerStep_flush B g buf t hflush] at hc
        rcases List.mem_append.mp hc with h | h
        · rw [paths_mem_flushCmds g t.perms _ c h]
          exact hexact
        · exact hrec.1 c h
      · rw [workerLoop_cons, workerStep_flush B g buf t hflush]
        exact hrec.2
    · have hb2 : bufBelow B (insertBuf buf t.perms t.path) := by
        intro q
        rw [getBuf_insertBuf]
        by_cases hq : t.perms = q
        · rw [if_pos hq]
          rw [hgrp] at hflush
          omega
        · rw [if_neg hq]
          exact hb q
      have hrec := ih (insertBuf buf t.perms t.path) hb2
      refine ⟨?_, ?_⟩
      · intro c hc
        rw [workerLoop_cons, workerStep_noflush B g buf t hflush] at hc
        simp only [List.nil_append] at hc
        exact hrec.1 c hc
      · rw [workerLoop_cons, workerStep_noflush B g buf t hflush]
        exact hrec.2

/-- C5: for any block size B ≥ 1, every batch a worker flushes in steady
state (during the consumption loop, before the termination sentinel) has
exactly B paths — the flush fires on the insertion that makes the group
reach B, never later; only the drain flush after the sentinel may differ
from B. -/
theorem steady_state_flush_exact (B : Int) (hB : 1 ≤ B) (g : Option String)
    (tasks : List Task) :
    ∀ c ∈ (workerLoop B g [] tasks).2, (c.paths.length : Int) = B :=
  (workerLoop_flush_exact B hB g tasks []
    (by intro p; simp [getBuf]; omega)).1

theorem steady_state_flush_exact_witness :
    (1 : Int) ≤ 1 ∧ ((Cmd.chmod "p" ["r"]).paths.length : Int) = 1 :=
  ⟨by decide,
   steady_state_flush_exact 1 (by decide) none [⟨"r", ".", "p"⟩]
     (Cmd.chmod "p" ["r"]) (by decide)⟩

theorem workerLoop_nonempty (B : Int) (g : Option String) (tasks : List Task) :
    ∀ buf : Buffer, ∀ c ∈ (workerLoop B g buf tasks).2, c.paths ≠ [] := by
  induction tasks with
  | nil =>
    intro buf c hc
    simp [workerLoop] at hc
  | cons t ts ih =>
    intro buf c hc
    rw [workerLoop_cons] at hc
    rcases List.mem_append.mp hc with h | h
    · by_cases hflush : B ≤ ((getBuf (insertBuf buf t.perms t.path) t.perms).length : Int)
      · rw [workerStep_flush B g buf t hflush] at h
        rw [paths_mem_flushCmds g t.perms _ c h, getBuf_insertBuf]
        simp only [if_pos rfl]
        exact insert_ne_nil t.path (getBuf buf t.perms)
      · rw [workerStep_noflush B g buf t hflush] at h
        simp at h
    · exact ih _ c h

theorem drainCmds_nonempty (g : Option String) (buf : Buffer) :
    ∀ c ∈ drainCmds g buf, c.paths ≠ [] := by
  induction buf with
  | nil => intro c hc; simp [drainCmds] at hc
  | cons kv rest ih =>
    obtain ⟨p, grp⟩ := kv
    intro c hc
    by_cases hg : grp.isEmpty
    · rw [show drainCmds g ((p, grp) :: rest) = [] ++ drainCmds g rest by
        simp [drainCmds, hg]] at hc
      exact ih c (by simpa using hc)
    · rw [show drainCmds g ((p, grp) :: rest)
          = flushCmds g p grp ++ drainCmds g rest by simp [drainCmds, hg]] at hc
      rcases List.mem_append.mp hc with h | h
      · rw [paths_mem_flushCmds g p grp c h]
        simpa using hg
      · exact ih c h

/-- C6: no flush — mid-run or drain — is ever performed on an empty
permission group, and during steady-state accumulation a flushed group
never exceeds the block size (only the final drain may hold groups of a
different size, and even flushing them it never flushes an empty one). -/
theorem flush_nonempty_and_bounded (B : Int) (hB : 1 ≤ B) (g : Option String)
    (tasks : List Task) :
    (∀ c ∈ workerRun B g tasks, c.paths ≠ []) ∧
    (∀ c ∈ (workerLoop B g [] tasks).2, (c.paths.length : Int) ≤ B) := by
  constructor
  · intro c hc
    rcases List.mem_append.mp (by simpa [workerRun] using hc) with h | h
    · exact workerLoop_nonempty B g tasks [] c h
    · exact drainCmds_nonempty g _ c h
  · intro c hc
    have := steady_state_flush_exact B hB g tasks c hc
    omega

theorem flush_nonempty_and_bounded_witness :
    (1 : Int) ≤ 1 ∧
      ((∀ c ∈ workerRun 1 none [⟨"r", ".", "p"⟩], c.paths ≠ []) ∧
       (∀ c ∈ (workerLoop 1 none [] [⟨"r", ".", "p"⟩]).2, (c.paths.length : Int) ≤ 1)) :=
  ⟨by decide, flush_nonempty_and_bounded 1 (by decide) none [⟨"r", ".", "p"⟩]⟩

theorem getBuf_nodup {buf : Buffer} (h : bufNodup buf) (p : String) :
    (getBuf buf p).Nodup := by
  rcases getBuf_cases buf p with hg | hg
  · rw [hg]; exact List.nodup_nil
  · exact h _ hg

theorem bufNodup_insertBuf {buf : Buffer} (h : bufNodup buf) (p x : String) :
    bufNodup (insertBuf buf p x) := by
  intro kv hkv
  rcases insertBuf_mem buf p x kv hkv with h1 | h1
  · exact h kv h1
  · rw [h1]
    exact (getBuf_nodup h p).insert

theorem bufNodup_clearBuf {buf : Buffer} (h : bufNodup buf) (p : String) :
    bufNodup (clearBuf buf p) := by
  intro kv hkv
  rcases clearBuf_mem buf p kv hkv with h1 | h1
  · rw [h1]; exact List.nodup_nil
  · exact h kv h1

theorem workerLoop_nodup (B : Int) (g : Option String) (tasks : List Task) :
    ∀ buf : Buffer, bufNodup buf →
      bufNodup (workerLoop B g buf tasks).1 ∧
      (∀ c ∈ (workerLoop B g buf tasks).2, c.paths.Nodup) := by
  induction tasks with
  | nil =>
    intro buf hb
    refine ⟨hb, ?_⟩
    intro c hc
    simp [workerLoop] at hc
  | cons t ts ih =>
    intro buf hb
    have hb1 : bufNodup (insertBuf buf t.perms t.path) := bufNodup_insertBuf hb _ _
    by_cases hflush : B ≤ ((getBuf (insertBuf buf t.perms t.path) t.perms).length : Int)
    · have hrec := ih (clearBuf (insertBuf buf t.perms t.path) t.perms)
        (bufNodup_clearBuf hb1 _)
      refine ⟨?_, ?_⟩
      · rw [workerLoop_cons, workerStep_flush B g buf t hflush]
        exact hrec.1
      · intro c hc
        rw [workerLoop_cons, workerStep_flush B g buf t hflush] at hc
        rcases List.mem_append.mp hc with h | h
        · rw [paths_mem_flushCmds g t.perms _ c h]
          exact getBuf_nodup hb1 t.perms
        · exact hrec.2 c h
    · have hrec := ih (insertBuf buf t.perms t.path) hb1
      refine ⟨?_, ?_⟩
      · rw [workerLoop_cons, workerStep_noflush B g buf t hflush]
        exact hrec.1
      · intro c hc
        rw [workerLoop_cons, workerStep_noflush B g buf t hflush] at hc
        simp only [List.nil_append] at hc
        exact hrec.2 c hc

theorem drainCmds_nodup (g : Option String) (buf : Buffer) (h : bufNodup buf) :
    ∀ c ∈ drainCmds g buf, c.paths.Nodup := by
  induction buf with
  | nil => intro c hc; simp [drainCmds] at hc
  | cons kv rest ih =>
    obtain ⟨p, grp⟩ := kv
    have hrest : bufNodup rest := fun kv hkv => h kv (List.mem_cons_of_mem _ hkv)
    intro c hc
    by_cases hg : grp.isEmpty
    · rw [show drainCmds g ((p, grp) :: rest) = [] ++ drainCmds g rest by
        simp [drainCmds, hg]] at hc
      exact ih hrest c (by simpa using hc)
    · rw [show drainCmds g ((p, grp) :: rest)
          = flushCmds g p grp ++ drainCmds g rest by simp [drainCmds, hg]] at hc
      rcases List.mem_append.mp hc with h1 | h1
      · rw [paths_mem_flushCmds g p grp c h1]
        exact h (p, grp) (by simp)
      · exact ih hrest c h1

/-- C7: a worker's permission groups obey set semantics — no resolved path
ever appears twice in a group (so every flushed batch is duplicate-free,
and so is every group left in the buffer), and inserting a path that is
already buffered under the same permission string leaves the group
unchanged. -/
theorem permgroup_set_semantics (B : Int) (g : Option String) (tasks : List Task) :
    (∀ kv ∈ (workerLoop B g [] tasks).1, kv.2.Nodup) ∧
    (∀ c ∈ workerRun B g tasks, c.paths.Nodup) ∧
    (∀ buf : Buffer, ∀ p x : String, x ∈ getBuf buf p →
      getBuf (insertBuf buf p x) p = getBuf buf p) := by
  have hbase : bufNodup ([] : Buffer) := by intro kv hkv; simp at hkv
  have hloop := workerLoop_nodup B g tasks [] hbase
  refine ⟨hloop.1, ?_, ?_⟩
  · intro c hc
    rcases List.mem_append.mp (by simpa [workerRun] using hc) with h | h
    · exact hloop.2 c h
    · exact drainCmds_nodup g _ hloop.1 c h
  · intro buf p x hx
    rw [getBuf_insertBuf]
    simp [List.insert_of_mem hx]


end Fastmod

namespace Fastmod

/-- C3 counterexample: a run configured with worker count 0 and block size
0 (both < 1) is not rejected — `parse_args` accepts `-C0` and `-B0`
without any diagnostic, and the run proceeds into the folder machinery
(outcome `folderRun`, not an abort), where `range(0)` spawns zero workers
while the producer still enqueues every task. -/
theorem config_invalid_not_rejected :
    main (fun _ => true) (fun _ => true) "users" defaultConfig
        ["fastmod", "d", "-C0", "-B0"] = .folderRun cfgZero ∧
    cfgZero.ncpus = 0 ∧ cfgZero.blocksize = 0 ∧ numWorkers cfgZero = 0 := by
  refine ⟨by decide, rfl, rfl, rfl⟩

/-- C3 amended: the code performs no `ConfigInvalid` validation at all.
Any configuration `parse_args` returns — including block size < 1 or
worker count < 1 — starts the folder run normally: the dispatch reaches
`fastmod_folder` (which spawns `range(ncpus)` workers, i.e. none when
`ncpus ≤ 0`) and the producer still enqueues all F + D tasks. -/
theorem no_config_validation (ex isdir : String → Bool) (pg : String) (c0 : Config)
    (prog path : String) (rest : List String) (c : Config)
    (hex : ex path = true)
    (hparse : parseRest pg { c0 with path := path } rest = .ok c)
    (hdir : isdir c.path = true) :
    main ex isdir pg c0 (prog :: path :: rest) = .folderRun c ∧
    ∀ walk : List WalkEntry,
      (produceTasks c.perms_dir c.perms_fil walk).length
        = numFiles walk + numDirs walk :=
  ⟨by simp [main, hex, hparse, hdir], fun walk => produceTasks_length _ _ walk⟩

theorem no_config_validation_witness :
    ((fun _ : String => true) "d" = true) ∧
    (parseRest "users" { defaultConfig with path := "d" } ["-C0", "-B0"] = .ok cfgZero) ∧
    ((fun _ : String => true) cfgZero.path = true) ∧
    (main (fun _ => true) (fun _ => true) "users" defaultConfig
        ["fastmod", "d", "-C0", "-B0"] = .folderRun cfgZero ∧
     ∀ walk : List WalkEntry,
      (produceTasks cfgZero.perms_dir cfgZero.perms_fil walk).length
        = numFiles walk + numDirs walk) :=
  ⟨rfl, by decide, rfl,
   no_config_validation (fun _ => true) (fun _ => true) "users" defaultConfig
     "fastmod" "d" ["-C0", "-B0"] cfgZero rfl (by decide) rfl⟩

/-- C8: when the root path does not exist, the run aborts in `parse_args`'
pre-flight check — the diagnostic is printed and `sys.exit(1)` raises
before any worker is spawned, any task is enqueued, or the report step
runs (outcome `pathNotFound`, reached before any dispatch into
`fastmod_folder` or `fastmod_file`). -/
theorem missing_root_aborts (ex isdir : String → Bool) (pg : String) (c0 : Config)
    (prog path : String) (rest : List String) (h : ex path = false) :
    main ex isdir pg c0 (prog :: path :: rest) = .pathNotFound := by
  simp [main, h]

theorem missing_root_aborts_witness :
    ((fun _ : String => false) "/missing" = false) ∧
    main (fun _ => false) (fun _ => true) "users" defaultConfig
        ["fastmod", "/missing"] = .pathNotFound :=
  ⟨rfl,
   missing_root_aborts (fun _ => false) (fun _ => true) "users" defaultConfig
     "fastmod" "/missing" [] rfl⟩

/-- C9: when the target path exists but is not a directory, `main`
dispatches to the single-file shortcut, bypassing queue and worker pool
entirely: the recorded invocations are exactly those of `fastmod_file`,
which performs exactly one permission change, and exactly one ownership
change if and only if group ownership is configured. -/
theorem single_file_bypass (ex isdir : String → Bool) (pg : String) (c0 : Config)
    (prog path : String) (rest : List String) (c : Config)
    (hex : ex path = true)
    (hparse : parseRest pg { c0 with path := path } rest = .ok c)
    (hdir : isdir c.path = false) :
    main ex isdir pg c0 (prog :: path :: rest) = .fileRun (fastmod_file c) ∧
    countChmod (fastmod_file c) = 1 ∧
    countChgrp (fastmod_file c) = (if c.set_group then 1 else 0) := by
  refine ⟨by simp [main, hex, hparse, hdir], ?_, ?_⟩
  · cases hsg : c.set_group <;> simp [fastmod_file, countChmod, hsg, List.filter]
  · cases hsg : c.set_group <;> simp [fastmod_file, countChgrp, hsg, List.filter]

theorem single_file_bypass_witness :
    ((fun _ : String => true) "f" = true) ∧
    (parseRest "users" { defaultConfig with path := "f" } ["-Gusers"]
      = .ok cfgGroupFile) ∧
    ((fun _ : String => false) cfgGroupFile.path = false) ∧
    (main (fun _ => true) (fun _ => false) "users" defaultConfig
        ["fastmod", "f", "-Gusers"] = .fileRun (fastmod_file cfgGroupFile) ∧
     countChmod (fastmod_file cfgGroupFile) = 1 ∧
     countChgrp (fastmod_file cfgGroupFile) = (if cfgGroupFile.set_group then 1 else 0)) :=
  ⟨rfl, by decide, rfl,
   single_file_bypass (fun _ => true) (fun _ => false) "users" defaultConfig
     "fastmod" "f" ["-Gusers"] cfgGroupFile rfl (by decide) rfl⟩

/-- C10: in the single-file shortcut, when group ownership is configured,
the permission change is invoked strictly before the ownership change —
the reverse of the batched worker path, whose every flush invokes the
ownership change before the permission change over the same path set. -/
theorem single_file_reversed_order (c : Config) (h : c.set_group = true) :
    fastmod_file c
      = [Cmd.chmod c.perms_fil [c.path], Cmd.chgrp (c.group.getD "None") [c.path]] ∧
    (∀ g perms : String, ∀ paths : PermGroup,
      flushCmds (some g) perms paths = [Cmd.chgrp g paths, Cmd.chmod perms paths]) :=
  ⟨by simp [fastmod_file, h], fun g perms paths => rfl⟩

theorem single_file_reversed_order_witness :
    (cfgGroupFile.set_group = true) ∧
    (fastmod_file cfgGroupFile
      = [Cmd.chmod "u+rw,g+r-w,o+r-w" ["f"], Cmd.chgrp "users" ["f"]] ∧
     ∀ g perms : String, ∀ paths : PermGroup,
      flushCmds (some g) perms paths = [Cmd.chgrp g paths, Cmd.chmod perms paths]) :=
  ⟨rfl, single_file_reversed_order cfgGroupFile rfl⟩

end Fastmod
